import Mathlib

/-!
Verification development for the glyph-input resolver and font model of
`Lib/diffenator/font.py` (classes `DFont`, `InputGenerator`, `Glyph`).

The Python code is shallowly embedded below.  Pure functions become Lean
functions; the mutable `self.memo` dictionary and the `seen` set (both of
which are mutated in place and shared through the recursion) become
explicitly threaded state.  The recursion of `input_from_name` through
`_inputs_from_gsub` is made total with a fuel parameter; a stabilisation
theorem shows the result is independent of the fuel once the fuel passes a
bound computed from the font, so the fuel is an artefact of the embedding,
not of the modelled semantics.

`InputGenerator` inherits from `HbInputGenerator` (`diffenator/hbinput.py`),
whose source is not part of `src/`; the pieces it supplies
(`self.memo`, `self.reverse_cmap`, `self.widths`, `self.space_width`,
`self._inputs_from_gsub`) are modelled from the spec, as marked in the
doc comments below.
-/

/-- A shaping-input candidate: a feature-tag tuple together with an input
text, exactly the `(features, text)` pairs `input_from_name` works with. -/
abbrev Cand := List String × String

/-- The memoisation dictionary `self.memo` (glyph name to chosen candidate),
modelled as an association list with dictionary lookup semantics. -/
abbrev Memo := List (String × Cand)

/-- Modelled from the spec (§6): a substitution rule, enumerated as the
relation rule to (required input glyph sequence, produced glyph,
activating feature-tag set); `diffenator/hbinput.py` is not in `src/`. -/
structure Rule where
  input : List String
  output : String
  features : List String
deriving DecidableEq, Repr

/-- A declared variable-font axis (tag and default value) as read from the
`fvar` table by `set_variations`. -/
structure Axis where
  tag : String
  defaultValue : Int
deriving DecidableEq, Repr

/-- The font-table access capability consumed by the core (spec §6): glyph
order, reverse character map, substitution rules, advance and visual
widths, space advance width, cmap-table presence, the declared axis set,
and the Unicode combining-class lookup.  Width and combining-class maps
default to 0 for unlisted keys. -/
structure TTF where
  glyph_order : List String
  reverse_cmap : List (String × Nat)
  rules : List Rule
  adv_widths : List (String × Nat)
  vis_widths : List (String × Nat)
  space_width : Nat
  has_cmap : Bool
  fvar : Option (List Axis)
  combining_classes : List (Char × Nat)
deriving DecidableEq, Repr

/-- Advance width of a glyph (`glyph_set[name].width`). -/
def TTF.adv (F : TTF) (name : String) : Nat :=
  (F.adv_widths.lookup name).getD 0

/-- Modelled from the spec: visual (drawn) width of a glyph
(`self.widths[name]` of `HbInputGenerator`, which is not in `src/`). -/
def TTF.vis (F : TTF) (name : String) : Nat :=
  (F.vis_widths.lookup name).getD 0

/-- Unicode combining class of a character (`unicodedata.combining`). -/
def TTF.cc (F : TTF) (c : Char) : Nat :=
  (F.combining_classes.lookup c).getD 0

/-- Python `<` on sequences (element by element; when one sequence is a
strict prefix of the other, the shorter one sorts first), over an element
comparison `ltB`. -/
def lexLtB {α : Type} (ltB : α → α → Bool) : List α → List α → Bool
  | _, [] => false
  | [], _ :: _ => true
  | a :: as, b :: bs =>
    if ltB a b then true else if ltB b a then false else lexLtB ltB as bs

/-- Python `<` on characters (code-point order). -/
def charLtB (a b : Char) : Bool :=
  decide (a < b)

/-- Python `<` on strings (code-point lexicographic). -/
def strLtB (a b : String) : Bool :=
  lexLtB charLtB a.data b.data

/-- Python `<` on tuples of strings. -/
def strListLtB : List String → List String → Bool :=
  lexLtB strLtB

/-- Python `<` on `(features, text)` pairs, the order `min(inputs)` uses. -/
def candLt (a b : Cand) : Bool :=
  if strListLtB a.1 b.1 then true
  else if strListLtB b.1 a.1 then false
  else strLtB a.2 b.2

/-- Python `min` over a list (returns the first minimal element; `none` on
an empty list, where Python would raise, a case `input_from_name` guards
against with `if not inputs`). -/
def pyMin (l : List Cand) : Option Cand :=
  match l with
  | [] => none
  | x :: xs => some (xs.foldl (fun m y => if candLt y m then y else m) x)

/-- Insert a tag into a sorted duplicate-free tag list. -/
def insertTag (s : String) : List String → List String
  | [] => [s]
  | x :: xs =>
    if strLtB s x then s :: x :: xs
    else if strLtB x s then x :: insertTag s xs
    else x :: xs

/-- Modelled from the spec: a candidate's feature set is the union of the
rule's activating tags and the sub-inputs' tags, represented as a sorted
duplicate-free feature-tag tuple. -/
def sortDedup (l : List String) : List String :=
  l.foldr insertTag []

/-- A run of `n` space characters (`' ' * n`). -/
def spaces (n : Nat) : String :=
  String.mk (List.replicate n ' ')

/-- The padding count `width // space + (1 if width % space else 0)` from
`input_from_name`. -/
def padCount (width space : Nat) : Nat :=
  width / space + (if width % space ≠ 0 then 1 else 0)

/-- Embedding of `characters.replace(' ', '')` from `all_inputs`: replacing every
single-character occurrence of a space by the empty string removes exactly
the space characters. -/
def stripSpaces (s : String) : String :=
  String.mk (s.data.filter (fun c => c != ' '))

/-- The direct-encoding candidate of `input_from_name` (lines 199-202):
if the reverse character map sends `name` to a code point whose character
is not NUL, a single no-feature candidate with that character. -/
def cmap_base (F : TTF) (name : String) : List Cand :=
  match F.reverse_cmap.lookup name with
  | some cp => if Char.ofNat cp ≠ Char.ofNat 0 then [([], String.singleton (Char.ofNat cp))] else []
  | none => []

mutual

/-- Embedding of `InputGenerator.input_from_name` (font.py lines 170-222).
State threaded explicitly: the memo dictionary and the `seen` set (a list,
newest first; the source only ever adds a name that is absent, and the
`seen.remove(name)` of the upstream code is commented out in this source).
The fuel argument makes the recursion total; see `input_from_name_stable`.
Recursive resolution of substitution inputs goes through
`gsub_cands_aux`. -/
def input_from_name_aux (F : TTF) : Nat → String → Bool → Memo → List String →
    Option Cand × Memo × List String
  | 0, _, _, memo, seen => (none, memo, seen)
  | fuel+1, name, pad, memo, seen =>
    match memo.lookup name with
    | some r => (some r, memo, seen)
    | none =>
      if name ∈ seen then (none, memo, seen)
      else
        let seen1 := name :: seen
        match gsub_cands_aux F fuel F.rules name memo seen1 with
        | (gs, memo1, seen2) =>
          match pyMin (cmap_base F name ++ gs) with
          | none => (none, memo1, seen2)
          | some (feats, text) =>
            let text1 := if pad ∧ 0 < F.space_width then
                spaces (padCount (F.vis name) F.space_width) ++ text
              else text
            (some (feats, text1), (name, (feats, text1)) :: memo1, seen2)

/-- Modelled from the spec (§4.2 step 4): `_inputs_from_gsub` of
`HbInputGenerator` (not in `src/`).  For every substitution rule whose
output is `name`, recursively resolve every required input glyph (through
`seq_aux`); if all resolve, contribute one candidate whose text is the
concatenation of the sub-texts in order and whose features are the union
of the rule's activating tags with the sub-inputs' tags; a rule whose
inputs do not all resolve contributes nothing. -/
def gsub_cands_aux (F : TTF) : Nat → List Rule → String → Memo → List String →
    List Cand × Memo × List String
  | 0, _, _, memo, seen => ([], memo, seen)
  | _+1, [], _, memo, seen => ([], memo, seen)
  | fuel+1, r :: rs, name, memo, seen =>
    if r.output = name then
      match seq_aux F fuel r.input memo seen with
      | (some (fs, texts), memo1, seen1) =>
        match gsub_cands_aux F fuel rs name memo1 seen1 with
        | (cs, memo2, seen2) =>
          ((sortDedup (r.features ++ fs), String.join texts) :: cs, memo2, seen2)
      | (none, memo1, seen1) => gsub_cands_aux F fuel rs name memo1 seen1
    else gsub_cands_aux F fuel rs name memo seen

/-- Modelled from the spec (§4.2 step 4): resolve a rule's required input
glyphs in sequence (recursing into `input_from_name` with `pad` unset and
the same `seen` object), failing as soon as one of them is unresolvable. -/
def seq_aux (F : TTF) : Nat → List String → Memo → List String →
    Option (List String × List String) × Memo × List String
  | 0, _, memo, seen => (none, memo, seen)
  | _+1, [], memo, seen => (some ([], []), memo, seen)
  | fuel+1, g :: gs, memo, seen =>
    match input_from_name_aux F fuel g false memo seen with
    | (some (f, t), memo1, seen1) =>
      match seq_aux F fuel gs memo1 seen1 with
      | (some (fs, ts), memo2, seen2) => (some (f ++ fs, t :: ts), memo2, seen2)
      | (none, memo2, seen2) => (none, memo2, seen2)
    | (none, memo1, seen1) => (none, memo1, seen1)

end

/-- The candidate list one expansion of `input_from_name` selects from:
the direct-encoding candidate (if any) followed by the substitution
candidates, evaluated in the expansion's state (with `name` already added
to `seen`). -/
def cand_list (F : TTF) (fuel : Nat) (name : String) (memo : Memo)
    (seen : List String) : List Cand :=
  cmap_base F name ++ (gsub_cands_aux F fuel F.rules name memo (name :: seen)).1

/-- All glyph names occurring in the font structure (glyph order plus every
rule's output and required inputs); every name the resolution can recurse
into belongs to this list, which bounds the recursion depth. -/
def all_names (F : TTF) : List String :=
  F.glyph_order ++ F.rules.flatMap (fun r => r.output :: r.input)

/-- Longest required-input sequence over the font's substitution rules. -/
def maxInputLen (F : TTF) : Nat :=
  (F.rules.map (fun r => r.input.length)).foldr max 0

/-- Per-expansion fuel budget: enough for one `input_from_name` body, one
traversal of the rule list, and one required-input sequence. -/
def fuelStep (F : TTF) : Nat :=
  F.rules.length + maxInputLen F + 3

/-- Fuel that every top-level resolution provably stays below (see
`input_from_name_stable`): one `fuelStep` per name the `seen` set can
still absorb. -/
def defaultFuel (F : TTF) : Nat :=
  ((all_names F).length + 1) * fuelStep F + 1

/-- How many names of the font universe the `seen` set has not yet
absorbed; the measure along which every expansion of the resolver strictly
descends (an expanded name joins `seen` and is never removed). -/
def seenGap (F : TTF) (seen : List String) : Nat :=
  ((all_names F).filter (fun n => !decide (n ∈ seen))).length

/-- Embedding of `InputGenerator.input_from_name` called the way `all_inputs` calls it:
fresh `seen` set, memo threaded from the session state. -/
def input_from_name (F : TTF) (name : String) (pad : Bool) (memo : Memo) :
    Option Cand × Memo × List String :=
  input_from_name_aux F (defaultFuel F) name pad memo []

/-- The `Glyph` value class of font.py (lines 225-238). -/
structure Glyph where
  name : String
  features : List String
  characters : String
  combining : Bool
  key : String
  font : TTF
deriving DecidableEq, Repr

/-- Embedding of `Glyph.__init__`: derives the combining flag from the
first character's Unicode combining class and the key from the characters
plus the joined feature tags. -/
def mkGlyph (F : TTF) (name : String) (features : List String)
    (characters : String) : Glyph :=
  ⟨name, features, characters,
   (match characters.data with
    | [] => false
    | c :: _ => F.cc c != 0),
   characters ++ String.join features, F⟩

/-- Embedding of the loop body of `InputGenerator.all_inputs` (lines
151-168) over a list of glyph names, threading the memo (the mutable
`self.memo`) from glyph to glyph; each glyph's resolution starts with a
fresh `seen` set.  A resolved glyph's characters have every space removed;
an unresolvable glyph becomes `Glyph(name, ('',), '')`. -/
def all_inputs_go (F : TTF) (fuel : Nat) : List String → Memo → List Glyph
  | [], _ => []
  | name :: rest, memo =>
    match input_from_name_aux F fuel name (F.adv name == 0) memo [] with
    | (some (features, characters), memo1, _) =>
      mkGlyph F name features (stripSpaces characters) :: all_inputs_go F fuel rest memo1
    | (none, memo1, _) =>
      mkGlyph F name [""] "" :: all_inputs_go F fuel rest memo1

/-- Embedding of `InputGenerator.all_inputs` over the font glyph order. -/
def all_inputs (F : TTF) : List Glyph :=
  all_inputs_go F (defaultFuel F) F.glyph_order []

/-- Python dictionary assignment on an association list: overwrite the
value in place if the key exists, append otherwise. -/
def assocSet (m : List (String × Glyph)) (k : String) (v : Glyph) :
    List (String × Glyph) :=
  if k ∈ m.map Prod.fst then
    m.map (fun p => if p.1 = k then (k, v) else p)
  else m ++ [(k, v)]

/-- Embedding of `DFont._gen_inputs` (lines 63-67): empty when the font has
no cmap table, otherwise the dictionary `{g.name: g for g in inputs}`. -/
def gen_inputs (F : TTF) : List (String × Glyph) :=
  if F.has_cmap then
    (all_inputs F).foldl (fun m g => assocSet m g.name g) []
  else []

/-- The derived-table recomputation capability of `DFont.recalc_tables`.
Modelled from the spec: the `dump_*` functions and `DumpAnchors` live in
`diffenator/dump.py`, which is not in `src/`; per the spec they rebuild
each table purely from the current font resource, so they are abstract
functions of that resource. -/
structure Dumps (τ : Type) where
  anchors_marks : TTF → τ
  anchors_mkmks : TTF → τ
  glyphs : TTF → τ
  glyph_metrics : TTF → τ
  attribs : TTF → τ
  nametable : TTF → τ
  kerning : TTF → τ

/-- The state of a `DFont` object: the current font resource `_ttfont`,
the load-time resource `_src` (set once in `__init__` and never replaced),
the glyph-input map `_glyphset`, the write-only `_input_map`, the axis
bookkeeping, and the derived tables (each `none` until first computed). -/
structure DFont (τ : Type) where
  ttfont : TTF
  src : TTF
  glyphset : List (String × Glyph)
  input_map : List (String × Glyph)
  axis_locations : Option (List (String × Int))
  axis_order : Option (List String)
  glyphs : Option τ
  marks : Option τ
  mkmks : Option τ
  glyph_metrics : Option τ
  attribs : Option τ
  names : Option τ
  kerns : Option τ
  metrics : Option τ

/-- Embedding of `DFont.recalc_tables` (lines 103-113): rebuilds the eight
derived-table attributes from the current `_ttfont` (note
`dump_glyph_metrics` is invoked twice, for `_glyph_metrics` and
`_metrics`).  It does not touch `_glyphset` or `_input_map`. -/
def recalc_tables {τ : Type} (d : Dumps τ) (st : DFont τ) : DFont τ :=
  { st with
    glyphs := some (d.glyphs st.ttfont)
    marks := some (d.anchors_marks st.ttfont)
    mkmks := some (d.anchors_mkmks st.ttfont)
    glyph_metrics := some (d.glyph_metrics st.ttfont)
    attribs := some (d.attribs st.ttfont)
    names := some (d.nametable st.ttfont)
    kerns := some (d.kerning st.ttfont)
    metrics := some (d.glyph_metrics st.ttfont) }

/-- Embedding of `DFont.__init__` with a file and `lazy=False`: the glyph
set is generated once from the loaded font, `_src` aliases `_ttfont`, and
the derived tables are computed. -/
def mkDFont {τ : Type} (d : Dumps τ) (F : TTF) : DFont τ :=
  recalc_tables d
    ⟨F, F, gen_inputs F, [], none, none, none, none, none, none, none, none, none, none⟩

/-- Embedding of `DFont.recalc_input_map` (lines 69-70): regenerates the
inputs but assigns them to `self._input_map`, an attribute nothing reads
(the `glyphset` property returns `self._glyphset`). -/
def recalc_input_map {τ : Type} (st : DFont τ) : DFont τ :=
  { st with input_map := gen_inputs st.ttfont }

/-- Embedding of `DFont.is_variable`: true iff the load-time font declares `fvar`. -/
def is_variable {τ : Type} (st : DFont τ) : Bool :=
  st.src.fvar.isSome

/-- The loop of `set_variations` over the requested axes: for a requested
tag present in `_axis_locations`, overwrite its value; otherwise emit the
warning `"font has no axis called {tag}"` and ignore the tag.  Returns the
final locations and the warnings in request order. -/
def applyAxes : List (String × Int) → List (String × Int) →
    List (String × Int) × List String
  | locs, [] => (locs, [])
  | locs, (t, v) :: rest =>
    if t ∈ locs.map Prod.fst then
      applyAxes (locs.map (fun p => if p.1 = t then (t, v) else p)) rest
    else
      match applyAxes locs rest with
      | (l, w) => (l, ("font has no axis called " ++ t) :: w)

/-- Embedding of `DFont.set_variations` (lines 78-92).  `inst` is the
external `instantiateVariableFont` capability (spec §6: an operation
producing a new font resource pinned at a given axis coordinate); it is
applied to `_src`, the load-time font.  On a variable font the axis order
and the default axis locations are reset from `fvar`, the requested axes
are folded in (warning on unknown tags), and the derived tables are
recomputed; on a non-variable font the state is unchanged and `"Not vf"`
is printed.  The returned list collects the printed warnings. -/
def set_variations {τ : Type} (d : Dumps τ) (inst : TTF → List (String × Int) → TTF)
    (st : DFont τ) (axes : List (String × Int)) : DFont τ × List String :=
  match st.src.fvar with
  | some decl =>
    match applyAxes (decl.map (fun a => (a.tag, a.defaultValue))) axes with
    | (locs, warns) =>
      (recalc_tables d
        { st with
          ttfont := inst st.src axes
          axis_order := some (decl.map (fun a => a.tag))
          axis_locations := some locs }, warns)
  | none => (st, ["Not vf"])

/-- A trivial derived-table capability over the unit type, for concrete
instantiations of the `DFont` model. -/
def dUnit : Dumps Unit :=
  ⟨fun _ => (), fun _ => (), fun _ => (), fun _ => (), fun _ => (), fun _ => (),
   fun _ => ()⟩

/-- Concrete variable font: one encoded glyph `a`, one declared axis
`wght` with default 400. -/
def F1c : TTF :=
  ⟨["a"], [("a", 97)], [], [("a", 1)], [("a", 1)], 1, true,
   some [⟨"wght", 400⟩], []⟩

/-- A concrete instantiation capability that returns a font resource
observably different from the input (space advance 99). -/
def inst1 : TTF → List (String × Int) → TTF :=
  fun f _ => { f with space_width := 99 }

/-- Concrete font for the padding law: glyph `a` is encoded, has advance
width 0, visual width 3; the space glyph has advance width 2. -/
def F2c : TTF :=
  ⟨["a"], [("a", 97)], [], [("a", 0)], [("a", 3)], 2, true, none, []⟩

/-- Concrete font with a single unresolvable glyph `z` (no encoding, no
substitution rule produces it). -/
def F3c : TTF :=
  ⟨["z"], [], [], [("z", 1)], [("z", 1)], 1, true, none, []⟩

/-- Concrete font where glyph `c` is produced from the encoded glyph `a`
by one substitution rule. -/
def F5c : TTF :=
  ⟨["c", "a"], [("a", 97)], [⟨["a"], "c", ["x1"]⟩], [("c", 1), ("a", 1)],
   [("c", 1), ("a", 1)], 1, true, none, []⟩

/-- Concrete font with a substitution cycle: `A` is produced only from `B`
and `B` only from `A`; neither is encoded. -/
def FCc : TTF :=
  ⟨["A", "B"], [], [⟨["B"], "A", ["x1"]⟩, ⟨["A"], "B", ["x2"]⟩], [], [], 0,
   true, none, []⟩

/-- Concrete font whose glyph `c` is produced by two rules (from `p` and
from `q`), where resolving `p` first leaves the helper glyph `m` stranded
in the `seen` set and thereby suppresses the `q` candidate. -/
def F8a : TTF :=
  ⟨["c", "p", "q", "m", "a", "z"], [("a", 97)],
   [⟨["p"], "c", ["zz"]⟩, ⟨["q"], "c", ["aa"]⟩, ⟨["m", "z"], "p", ["f1"]⟩,
    ⟨["a"], "p", ["f2"]⟩, ⟨["p"], "m", ["f3"]⟩, ⟨["m"], "q", ["f4"]⟩],
   [], [], 0, true, none, []⟩

/-- The same font as `F8a` with the two rules producing `c` enumerated in
the opposite order (the rule set is a permutation of `F8a.rules`). -/
def F8b : TTF :=
  ⟨["c", "p", "q", "m", "a", "z"], [("a", 97)],
   [⟨["q"], "c", ["aa"]⟩, ⟨["p"], "c", ["zz"]⟩, ⟨["m", "z"], "p", ["f1"]⟩,
    ⟨["a"], "p", ["f2"]⟩, ⟨["p"], "m", ["f3"]⟩, ⟨["m"], "q", ["f4"]⟩],
   [], [], 0, true, none, []⟩

/-- Concrete variable font for the `set_variations` scenario: declares
only the axis `wght` with default 400. -/
def F9c : TTF :=
  ⟨["a"], [("a", 97)], [], [("a", 1)], [("a", 1)], 1, true,
   some [⟨"wght", 400⟩], []⟩

/-- An instantiation capability that keeps the resource unchanged. -/
def inst9 : TTF → List (String × Int) → TTF :=
  fun f _ => f


/-! ## Helper lemmas -/

theorem lookup_cons_ne {β : Type} (k x : String) (v : β) (l : List (String × β))
    (h : k ≠ x) : ((k, v) :: l).lookup x = l.lookup x := by
  have hb : (x == k) = false := beq_eq_false_iff_ne.mpr (Ne.symm h)
  simp [List.lookup, hb]

theorem lookup_cons_self {β : Type} (k : String) (v : β) (l : List (String × β)) :
    ((k, v) :: l).lookup k = some v := by
  simp [List.lookup]

/-- The `seen` set only ever grows: across any call of the resolver (and of
its two modelled sub-traversals) the input `seen` list is a subset of the
returned one.  The source adds `name` to `seen` and the removal that the
upstream code performed afterwards is commented out. -/
theorem seen_mono : ∀ (fuel : Nat) (F : TTF),
    (∀ name pad memo seen,
      seen ⊆ (input_from_name_aux F fuel name pad memo seen).2.2) ∧
    (∀ rules name memo seen,
      seen ⊆ (gsub_cands_aux F fuel rules name memo seen).2.2) ∧
    (∀ gs memo seen, seen ⊆ (seq_aux F fuel gs memo seen).2.2) := by
  intro fuel
  induction fuel with
  | zero =>
    intro F
    refine ⟨?_, ?_, ?_⟩ <;> intros <;>
      simp [input_from_name_aux, gsub_cands_aux, seq_aux]
  | succ n ih =>
    intro F
    obtain ⟨ihI, ihG, ihS⟩ := ih F
    refine ⟨?_, ?_, ?_⟩
    · intro name pad memo seen
      rcases hm : memo.lookup name with _ | r
      · by_cases hs : name ∈ seen
        · simp [input_from_name_aux, hm, hs]
        · rcases hg : gsub_cands_aux F n F.rules name memo (name :: seen) with ⟨gs, m1, s1⟩
          have h1 : (name :: seen) ⊆ s1 := by
            have h := ihG F.rules name memo (name :: seen)
            rw [hg] at h; exact h
          have h2 : seen ⊆ s1 := (List.subset_cons_self _ _).trans h1
          rcases hp : pyMin (cmap_base F name ++ gs) with _ | ⟨f, t⟩ <;>
            simp [input_from_name_aux, hm, hs, hg, hp] <;> exact h2
      · simp [input_from_name_aux, hm]
    · intro rules name memo seen
      rcases rules with _ | ⟨r, rs⟩
      · simp [gsub_cands_aux]
      · by_cases ho : r.output = name
        · rcases hq : seq_aux F n r.input memo seen with ⟨sq, m1, s1⟩
          have h1 : seen ⊆ s1 := by
            have h := ihS r.input memo seen
            rw [hq] at h; exact h
          rcases sq with _ | ⟨fs, ts⟩
          · have h2 := ihG rs name m1 s1
            simp [gsub_cands_aux, ho, hq]
            exact h1.trans h2
          · rcases hg2 : gsub_cands_aux F n rs name m1 s1 with ⟨cs, m2, s2⟩
            have h2 : s1 ⊆ s2 := by
              have h := ihG rs name m1 s1
              rw [hg2] at h; exact h
            simp [gsub_cands_aux, ho, hq, hg2]
            exact h1.trans h2
        · simp [gsub_cands_aux, ho]
          exact ihG rs name memo seen
    · intro gs memo seen
      rcases gs with _ | ⟨g, rest⟩
      · simp [seq_aux]
      · rcases hi : input_from_name_aux F n g false memo seen with ⟨res, m1, s1⟩
        have h1 : seen ⊆ s1 := by
          have h := ihI g false memo seen
          rw [hi] at h; exact h
        rcases res with _ | ⟨f, t⟩
        · simp [seq_aux, hi]; exact h1
        · rcases hq : seq_aux F n rest m1 s1 with ⟨sq, m2, s2⟩
          have h2 : s1 ⊆ s2 := by
            have h := ihS rest m1 s1
            rw [hq] at h; exact h
          rcases sq with _ | ⟨fs, ts⟩ <;>
            simp [seq_aux, hi, hq] <;> exact h1.trans h2

/-- Memo entries of names on the `seen` set are untouched: a call can only
add memo entries for names it expanded, and it never expands a name that
is in `seen` at its entry. -/
theorem memo_frozen : ∀ (fuel : Nat) (F : TTF),
    (∀ name pad memo seen x, x ∈ seen →
      ((input_from_name_aux F fuel name pad memo seen).2.1).lookup x = memo.lookup x) ∧
    (∀ rules name memo seen x, x ∈ seen →
      ((gsub_cands_aux F fuel rules name memo seen).2.1).lookup x = memo.lookup x) ∧
    (∀ gs memo seen x, x ∈ seen →
      ((seq_aux F fuel gs memo seen).2.1).lookup x = memo.lookup x) := by
  intro fuel
  induction fuel with
  | zero =>
    intro F
    refine ⟨?_, ?_, ?_⟩ <;> intros <;>
      simp [input_from_name_aux, gsub_cands_aux, seq_aux]
  | succ n ih =>
    intro F
    obtain ⟨ihI, ihG, ihS⟩ := ih F
    refine ⟨?_, ?_, ?_⟩
    · intro name pad memo seen x hx
      rcases hm : memo.lookup name with _ | r
      · by_cases hs : name ∈ seen
        · simp [input_from_name_aux, hm, hs]
        · have hne : name ≠ x := fun he => hs (he ▸ hx)
          rcases hg : gsub_cands_aux F n F.rules name memo (name :: seen) with ⟨gs, m1, s1⟩
          have h1 : m1.lookup x = memo.lookup x := by
            have h := ihG F.rules name memo (name :: seen) x (List.mem_cons_of_mem _ hx)
            rw [hg] at h; exact h
          rcases hp : pyMin (cmap_base F name ++ gs) with _ | ⟨f, t⟩
          · simp [input_from_name_aux, hm, hs, hg, hp]; exact h1
          · simp [input_from_name_aux, hm, hs, hg, hp]
            rw [lookup_cons_ne _ _ _ _ hne]
            exact h1
      · simp [input_from_name_aux, hm]
    · intro rules name memo seen x hx
      rcases rules with _ | ⟨r, rs⟩
      · simp [gsub_cands_aux]
      · by_cases ho : r.output = name
        · rcases hq : seq_aux F n r.input memo seen with ⟨sq, m1, s1⟩
          have hs1 : seen ⊆ s1 := by
            have h := (seen_mono n F).2.2 r.input memo seen
            rw [hq] at h; exact h
          have h1 : m1.lookup x = memo.lookup x := by
            have h := ihS r.input memo seen x hx
            rw [hq] at h; exact h
          rcases sq with _ | ⟨fs, ts⟩
          · have h2 := ihG rs name m1 s1 x (hs1 hx)
            simp [gsub_cands_aux, ho, hq]
            rw [h2, h1]
          · rcases hg2 : gsub_cands_aux F n rs name m1 s1 with ⟨cs, m2, s2⟩
            have h2 : m2.lookup x = m1.lookup x := by
              have h := ihG rs name m1 s1 x (hs1 hx)
              rw [hg2] at h; exact h
            simp [gsub_cands_aux, ho, hq, hg2]
            rw [h2, h1]
        · simp [gsub_cands_aux, ho]
          exact ihG rs name memo seen x hx
    · intro gs memo seen x hx
      rcases gs with _ | ⟨g, rest⟩
      · simp [seq_aux]
      · rcases hi : input_from_name_aux F n g false memo seen with ⟨res, m1, s1⟩
        have hs1 : seen ⊆ s1 := by
          have h := (seen_mono n F).1 g false memo seen
          rw [hi] at h; exact h
        have h1 : m1.lookup x = memo.lookup x := by
          have h := ihI g false memo seen x hx
          rw [hi] at h; exact h
        rcases res with _ | ⟨f, t⟩
        · simp [seq_aux, hi]; exact h1
        · rcases hq : seq_aux F n rest m1 s1 with ⟨sq, m2, s2⟩
          have h2 : m2.lookup x = m1.lookup x := by
            have h := ihS rest m1 s1 x (hs1 hx)
            rw [hq] at h; exact h
          rcases sq with _ | ⟨fs, ts⟩ <;>
            simp [seq_aux, hi, hq] <;> rw [h2, h1]

theorem lexLtB_irrefl {α : Type} (ltB : α → α → Bool)
    (hirr : ∀ x, ltB x x = false) : ∀ l, lexLtB ltB l l = false
  | [] => rfl
  | a :: as => by simp [lexLtB, hirr a, lexLtB_irrefl ltB hirr as]

theorem lexLtB_trans {α : Type} (ltB : α → α → Bool)
    (htr : ∀ x y z, ltB x y = true → ltB y z = true → ltB x z = true)
    (hconn : ∀ x y, ltB x y = false → ltB y x = false → x = y) :
    ∀ a b c, lexLtB ltB a b = true → lexLtB ltB b c = true →
      lexLtB ltB a c = true := by
  intro a
  induction a with
  | nil =>
    intro b c h1 h2
    rcases b with _ | ⟨y, ys⟩
    · exact h2
    · rcases c with _ | ⟨z, zs⟩
      · simp [lexLtB] at h2
      · rfl
  | cons x xs ih =>
    intro b c h1 h2
    rcases b with _ | ⟨y, ys⟩
    · simp [lexLtB] at h1
    · rcases c with _ | ⟨z, zs⟩
      · simp [lexLtB] at h2
      · rcases hxy : ltB x y with _ | _
        · rcases hyx : ltB y x with _ | _
          · -- x and y incomparable, hence equal
            have hxy' := hconn x y hxy hyx
            subst hxy'
            simp only [lexLtB, hxy, if_neg, Bool.false_eq_true, if_false] at h1 h2 ⊢
            rcases hxz : ltB x z with _ | _
            · rcases hzx : ltB z x with _ | _
              · simp [hxz, hzx] at h1 h2 ⊢
                exact ih ys zs h1 h2
              · simp [hxz, hzx] at h2
            · simp [hxz]
          · simp [lexLtB, hxy, hyx] at h1
        · -- x < y
          rcases hyz : ltB y z with _ | _
          · rcases hzy : ltB z y with _ | _
            · have hyz' := hconn y z hyz hzy
              subst hyz'
              simp [lexLtB, hxy]
            · simp [lexLtB, hyz, hzy] at h2
          · have hxz := htr x y z hxy hyz
            simp [lexLtB, hxz]

theorem lexLtB_conn {α : Type} (ltB : α → α → Bool)
    (hconn : ∀ x y, ltB x y = false → ltB y x = false → x = y) :
    ∀ a b, lexLtB ltB a b = false → lexLtB ltB b a = false → a = b := by
  intro a
  induction a with
  | nil =>
    intro b h1 h2
    rcases b with _ | ⟨y, ys⟩
    · rfl
    · simp [lexLtB] at h1
  | cons x xs ih =>
    intro b h1 h2
    rcases b with _ | ⟨y, ys⟩
    · simp [lexLtB] at h2
    · rcases hxy : ltB x y with _ | _
      · rcases hyx : ltB y x with _ | _
        · have hxy' := hconn x y hxy hyx
          subst hxy'
          simp [lexLtB, hxy] at h1 h2
          rw [ih ys h1 h2]
        · simp [lexLtB, hxy, hyx] at h2
      · simp [lexLtB, hxy] at h1

theorem charLtB_trans : ∀ x y z : Char, charLtB x y = true → charLtB y z = true →
    charLtB x z = true := by
  intro x y z h1 h2
  simp [charLtB] at h1 h2 ⊢
  exact lt_trans h1 h2

theorem charLtB_conn : ∀ x y : Char, charLtB x y = false → charLtB y x = false →
    x = y := by
  intro x y h1 h2
  simp [charLtB] at h1 h2
  exact le_antisymm h2 h1

theorem string_data_inj : ∀ a b : String, a.data = b.data → a = b := by
  intro a b h
  cases a
  cases b
  exact congrArg String.mk h

theorem strLtB_trans : ∀ x y z : String, strLtB x y = true → strLtB y z = true →
    strLtB x z = true := by
  intro x y z h1 h2
  exact lexLtB_trans charLtB charLtB_trans charLtB_conn x.data y.data z.data h1 h2

theorem strLtB_conn : ∀ x y : String, strLtB x y = false → strLtB y x = false →
    x = y := by
  intro x y h1 h2
  exact string_data_inj x y (lexLtB_conn charLtB charLtB_conn x.data y.data h1 h2)

theorem strListLtB_trans : ∀ x y z : List String, strListLtB x y = true →
    strListLtB y z = true → strListLtB x z = true :=
  lexLtB_trans strLtB strLtB_trans strLtB_conn

theorem strListLtB_conn : ∀ x y : List String, strListLtB x y = false →
    strListLtB y x = false → x = y :=
  lexLtB_conn strLtB strLtB_conn

theorem charLtB_irrefl (c : Char) : charLtB c c = false := by
  simp [charLtB]

theorem strLtB_irrefl (s : String) : strLtB s s = false :=
  lexLtB_irrefl charLtB charLtB_irrefl s.data

theorem strListLtB_irrefl (l : List String) : strListLtB l l = false :=
  lexLtB_irrefl strLtB strLtB_irrefl l

theorem candLt_irrefl (x : Cand) : candLt x x = false := by
  simp [candLt, strListLtB_irrefl, strLtB_irrefl]

theorem candLt_trans : ∀ x y z : Cand, candLt x y = true → candLt y z = true →
    candLt x z = true := by
  intro x y z h1 h2
  rcases hf1 : strListLtB x.1 y.1 with _ | _ <;>
    rcases hf2 : strListLtB y.1 z.1 with _ | _
  · -- neither feature tuple comparison fires forward
    rcases hg1 : strListLtB y.1 x.1 with _ | _
    · have he1 := strListLtB_conn x.1 y.1 hf1 hg1
      rcases hg2 : strListLtB z.1 y.1 with _ | _
      · have he2 := strListLtB_conn y.1 z.1 hf2 hg2
        simp [candLt, hf1, hg1, hf2, hg2] at h1 h2
        have hx : strListLtB x.1 z.1 = false := by
          rw [he1, he2]; exact strListLtB_irrefl z.1
        have hy : strListLtB z.1 x.1 = false := by
          rw [he1, he2]; exact strListLtB_irrefl z.1
        simp [candLt, hx, hy]
        exact strLtB_trans _ _ _ h1 h2
      · simp [candLt, hf2, hg2] at h2
    · simp [candLt, hf1, hg1] at h1
  · -- y.1 < z.1 and x.1 = y.1 (or contradiction)
    rcases hg1 : strListLtB y.1 x.1 with _ | _
    · have he1 := strListLtB_conn x.1 y.1 hf1 hg1
      have hx : strListLtB x.1 z.1 = true := by rw [he1]; exact hf2
      simp [candLt, hx]
    · simp [candLt, hf1, hg1] at h1
  · -- x.1 < y.1 and y.1 = z.1 (or contradiction)
    rcases hg2 : strListLtB z.1 y.1 with _ | _
    · have he2 := strListLtB_conn y.1 z.1 hf2 hg2
      have hx : strListLtB x.1 z.1 = true := by rw [← he2]; exact hf1
      simp [candLt, hx]
    · simp [candLt, hf2, hg2] at h2
  · have hx := strListLtB_trans x.1 y.1 z.1 hf1 hf2
    simp [candLt, hx]

theorem candLt_conn : ∀ x y : Cand, candLt x y = false → candLt y x = false →
    x = y := by
  intro x y h1 h2
  rcases hf1 : strListLtB x.1 y.1 with _ | _
  · rcases hf2 : strListLtB y.1 x.1 with _ | _
    · have he := strListLtB_conn x.1 y.1 hf1 hf2
      simp [candLt, hf1, hf2] at h1 h2
      have ht := strLtB_conn x.2 y.2 h1 h2
      exact Prod.ext he ht
    · simp [candLt, hf1, hf2] at h2
  · simp [candLt, hf1] at h1

theorem pyMin_fold_spec :
    ∀ (zs : List Cand) (z : Cand),
      (zs.foldl (fun m c => if candLt c m then c else m) z ∈ z :: zs) ∧
        (∀ y ∈ z :: zs,
          candLt y (zs.foldl (fun m c => if candLt c m then c else m) z) = false) := by
  intro zs
  induction zs with
  | nil =>
    intro z
    refine ⟨List.mem_singleton_self z, ?_⟩
    intro y hy
    rw [List.mem_singleton] at hy
    rw [hy]
    exact candLt_irrefl z
  | cons w ws ih =>
    intro z
    have hfold : (w :: ws).foldl (fun m c => if candLt c m then c else m) z =
        ws.foldl (fun m c => if candLt c m then c else m)
          (if candLt w z then w else z) := rfl
    obtain ⟨ihm, ihmin⟩ := ih (if candLt w z then w else z)
    constructor
    · rw [hfold]
      by_cases hc : candLt w z = true
      · rw [if_pos hc] at ihm ⊢
        exact List.mem_cons_of_mem _ ihm
      · rw [if_neg hc] at ihm ⊢
        rcases List.mem_cons.mp ihm with h | h
        · rw [h]
          exact List.mem_cons_self _ _
        · exact List.mem_cons_of_mem _ (List.mem_cons_of_mem _ h)
    · intro y hy
      rw [hfold]
      by_cases hc : candLt w z = true
      · rw [if_pos hc] at ihm ihmin ⊢
        rcases List.mem_cons.mp hy with h | h
        · rw [h]
          rcases hq : candLt z (ws.foldl (fun m c => if candLt c m then c else m) w)
            with _ | _
          · rfl
          · have hw := ihmin w (List.mem_cons_self _ _)
            rw [candLt_trans w z _ hc hq] at hw
            simp at hw
        · exact ihmin y h
      · rw [if_neg hc] at ihm ihmin ⊢
        have hcf : candLt w z = false := by
          rcases hb : candLt w z with _ | _
          · rfl
          · exact absurd hb hc
        rcases List.mem_cons.mp hy with h | h
        · rw [h]
          exact ihmin z (List.mem_cons_self _ _)
        · rcases List.mem_cons.mp h with h2 | h2
          · rw [h2]
            rcases hq : candLt w (ws.foldl (fun m c => if candLt c m then c else m) z)
              with _ | _
            · rfl
            · rcases hzw : candLt z w with _ | _
              · have he := candLt_conn w z hcf hzw
                have hq2 := hq
                rw [he] at hq2
                have hz := ihmin z (List.mem_cons_self _ _)
                rw [hq2] at hz
                simp at hz
              · have hz := ihmin z (List.mem_cons_self _ _)
                rw [candLt_trans z w _ hzw hq] at hz
                simp at hz
          · exact ihmin y (List.mem_cons_of_mem _ h2)

/-- Lemma: `pyMin` returns an element of the list that no element is strictly
below. -/
theorem pyMin_spec : ∀ (l : List Cand) (x : Cand), pyMin l = some x →
    x ∈ l ∧ ∀ y ∈ l, candLt y x = false := by
  intro l x h
  rcases l with _ | ⟨z, zs⟩
  · simp [pyMin] at h
  · have hs := pyMin_fold_spec zs z
    simp [pyMin] at h
    rw [← h]
    exact hs

/-- Any member of the list that no element is strictly below is the value
`pyMin` returns (minima are unique because the candidate order is
connected). -/
theorem pyMin_eq_of_min : ∀ (l : List Cand) (x : Cand), x ∈ l →
    (∀ y ∈ l, candLt y x = false) → pyMin l = some x := by
  intro l x hx hmin
  rcases hmn : pyMin l with _ | m
  · rcases l with _ | ⟨z, zs⟩
    · simp at hx
    · simp [pyMin] at hmn
  · obtain ⟨hm, hminm⟩ := pyMin_spec l m hmn
    have h1 : candLt x m = false := hminm x hx
    have h2 : candLt m x = false := hmin m hm
    rw [candLt_conn m x h2 h1]

/-- The value of `pyMin` is invariant under permutation of the candidate
list. -/
theorem pyMin_perm : ∀ l1 l2 : List Cand, l1.Perm l2 → pyMin l1 = pyMin l2 := by
  intro l1 l2 hp
  rcases hmn : pyMin l1 with _ | m
  · have h1 : l1 = [] := by
      rcases l1 with _ | ⟨z, zs⟩
      · rfl
      · simp [pyMin] at hmn
    subst h1
    rw [List.Perm.eq_nil hp.symm]
    rfl
  · obtain ⟨hm, hmin⟩ := pyMin_spec l1 m hmn
    exact (pyMin_eq_of_min l2 m (hp.mem_iff.mp hm)
      (fun y hy => hmin y (hp.mem_iff.mpr hy))).symm

/-- The padding count of `input_from_name` is the ceiling of
width over space width. -/
theorem padCount_eq_ceilDiv (w s : Nat) (hs : 0 < s) : padCount w s = w ⌈/⌉ s := by
  rw [Nat.ceilDiv_eq_add_pred_div]
  by_cases h : w % s = 0
  · obtain ⟨q, hq⟩ : s ∣ w := Nat.dvd_of_mod_eq_zero h
    have h1 : s * q + s - 1 = s * q + (s - 1) := by omega
    rw [hq, h1, Nat.mul_add_div hs, Nat.div_eq_of_lt (by omega)]
    simp [padCount, Nat.mul_mod_right, Nat.mul_div_cancel_left _ hs]
  · have hd := Nat.div_add_mod w s
    have hlt : w % s < s := Nat.mod_lt _ hs
    have h1 : w + s - 1 = s * (w / s + 1) + (w % s - 1) := by
      rw [Nat.mul_add, Nat.mul_one]; omega
    have h2 : (w % s - 1) / s = 0 := Nat.div_eq_of_lt (by omega)
    rw [h1, Nat.mul_add_div hs, h2]
    simp [padCount, h]

theorem all_inputs_go_names (F : TTF) (fuel : Nat) :
    ∀ (names : List String) (memo : Memo),
      (all_inputs_go F fuel names memo).map (fun g => g.name) = names := by
  intro names
  induction names with
  | nil => intro memo; rfl
  | cons n rest ih =>
    intro memo
    rcases h : input_from_name_aux F fuel n (F.adv n == 0) memo [] with ⟨res, m1, s1⟩
    rcases res with _ | ⟨f, c⟩ <;> simp [all_inputs_go, h, mkGlyph, ih]

theorem all_inputs_go_no_space (F : TTF) (fuel : Nat) :
    ∀ (names : List String) (memo : Memo) (g : Glyph),
      g ∈ all_inputs_go F fuel names memo → ' ' ∉ g.characters.data := by
  intro names
  induction names with
  | nil => intro memo g hg; simp [all_inputs_go] at hg
  | cons n rest ih =>
    intro memo g hg
    rcases h : input_from_name_aux F fuel n (F.adv n == 0) memo [] with ⟨res, m1, s1⟩
    rcases res with _ | ⟨f, c⟩
    · simp [all_inputs_go, h, List.mem_cons] at hg
      rcases hg with hg | hg
      · subst hg; simp [mkGlyph]
      · exact ih m1 g hg
    · simp [all_inputs_go, h, List.mem_cons] at hg
      rcases hg with hg | hg
      · subst hg
        simp [mkGlyph, stripSpaces]
      · exact ih m1 g hg

/-! ## Claim theorems -/

/-- C1: the claim says `recalc_tables` rebuilds every derived table
including the glyph-input map `glyphset` from the current font resource,
so that after `set_variations` the inputs reflect the new coordinate.  In
the code this fails: `recalc_tables` rebuilds only the eight dump tables
and never touches `_glyphset`; `recalc_input_map` assigns the regenerated
inputs to the never-read `_input_map` attribute and is itself never
called.  This theorem records the divergence: the glyph set survives
`recalc_tables`, `set_variations` and `recalc_input_map` unchanged, and on
a concrete variable font the post-variation glyph set differs from what
regenerating it from the new resource would give. -/
theorem c1_glyphset_never_recomputed :
    (∀ (τ : Type) (d : Dumps τ) (st : DFont τ),
      (recalc_tables d st).glyphset = st.glyphset)
    ∧ (∀ (τ : Type) (d : Dumps τ) (inst : TTF → List (String × Int) → TTF)
        (st : DFont τ) (axes : List (String × Int)),
        (set_variations d inst st axes).1.glyphset = st.glyphset)
    ∧ (∀ (τ : Type) (st : DFont τ), (recalc_input_map st).glyphset = st.glyphset)
    ∧ (set_variations dUnit inst1 (mkDFont dUnit F1c) [("wght", 700)]).1.glyphset ≠
        gen_inputs (set_variations dUnit inst1 (mkDFont dUnit F1c) [("wght", 700)]).1.ttfont := by
  refine ⟨fun τ d st => rfl, ?_, fun τ st => rfl, by decide⟩
  intro τ d inst st axes
  unfold set_variations
  rcases h : st.src.fvar with _ | decl
  · rfl
  · rcases h2 : applyAxes (decl.map (fun a => (a.tag, a.defaultValue))) axes with ⟨locs, warns⟩
    simp [recalc_tables]

/-- C2 counterexample: on a font whose zero-advance glyph `a` has visual
width 3 and space advance 2, the claim predicts the GlyphInput text
`"  a"` (ceil(3/2) = 2 leading spaces), but `all_inputs` returns `"a"`:
the `characters.replace(' ', '')` step removes the padding again. -/
theorem c2_counterexample :
    (all_inputs F2c).map (fun g => g.characters) = ["a"]
    ∧ padCount (F2c.vis "a") F2c.space_width = 2
    ∧ ("a" : String) ≠ spaces 2 ++ "a" := by decide

/-- C2 (amended): the ceil(w/s) space padding is applied to the text that
`input_from_name` returns (and memoizes), but `all_inputs` strips every
space from the text before constructing the GlyphInput, so the GlyphInput
text carries no padding.  Conjuncts: the padding count is the ceiling;
padding prefixes the text `input_from_name` would return unpadded; no
space survives into any GlyphInput of `all_inputs`. -/
theorem c2_amended :
    (∀ w s : Nat, 0 < s → padCount w s = w ⌈/⌉ s)
    ∧ (∀ (F : TTF) (fuel : Nat) (name : String) (memo : Memo) (seen : List String)
        (f : List String) (t : String), 0 < F.space_width →
        memo.lookup name = none →
        (input_from_name_aux F (fuel+1) name false memo seen).1 = some (f, t) →
        (input_from_name_aux F (fuel+1) name true memo seen).1 =
          some (f, spaces (padCount (F.vis name) F.space_width) ++ t))
    ∧ (∀ (F : TTF) (g : Glyph), g ∈ all_inputs F → ' ' ∉ g.characters.data) := by
  refine ⟨padCount_eq_ceilDiv, ?_, ?_⟩
  · intro F fuel name memo seen f t hsw hm h
    by_cases hs : name ∈ seen
    · simp [input_from_name_aux, hm, hs] at h
    · rcases hg : gsub_cands_aux F fuel F.rules name memo (name :: seen) with ⟨gs, m1, s1⟩
      rcases hp : pyMin (cmap_base F name ++ gs) with _ | ⟨f0, t0⟩
      · simp [input_from_name_aux, hm, hs, hg, hp] at h
      · simp [input_from_name_aux, hm, hs, hg, hp] at h ⊢
        obtain ⟨h1, h2⟩ := h
        simp [hsw, h1, h2]
  · intro F g hg
    exact all_inputs_go_no_space F (defaultFuel F) F.glyph_order [] g hg

/-- C2 witness: the amended statement at concrete inputs — the ceiling
identity at 3/2, the padding law at the concrete font `F2c`, and the
space-free GlyphInput text. -/
theorem c2_amended_witness :
    padCount 3 2 = 3 ⌈/⌉ 2
    ∧ (input_from_name_aux F2c (6+1) "a" true [] []).1 =
        some ([], spaces (padCount (F2c.vis "a") F2c.space_width) ++ "a")
    ∧ ' ' ∉ (mkGlyph F2c "a" ([] : List String) "a").characters.data :=
  ⟨c2_amended.1 3 2 (by decide),
   c2_amended.2.1 F2c 6 "a" [] [] [] "a" (by decide) (by decide) (by decide),
   c2_amended.2.2 F2c (mkGlyph F2c "a" ([] : List String) "a") (by decide)⟩

/-- C3 counterexample: the unresolvable glyph `z` of `F3c` receives the
feature tuple `('',)` — a one-element tuple holding the empty string —
which is not the empty tuple the claim states. -/
theorem c3_counterexample :
    (all_inputs F3c).map (fun g => g.features) = [[""]]
    ∧ ([""] : List String) ≠ [] := by decide

/-- C3 (amended): a glyph whose resolution yields no input still receives
a GlyphInput with empty text, and resolution of the remaining glyphs
continues; its feature tuple, however, is `('',)` (one empty-string
entry), not the empty tuple. -/
theorem c3_amended :
    (∀ (F : TTF) (fuel : Nat) (n : String) (rest : List String) (memo : Memo),
      (input_from_name_aux F fuel n (F.adv n == 0) memo []).1 = none →
      all_inputs_go F fuel (n :: rest) memo =
        mkGlyph F n [""] "" ::
          all_inputs_go F fuel rest ((input_from_name_aux F fuel n (F.adv n == 0) memo []).2.1))
    ∧ (∀ (F : TTF) (n : String),
        (mkGlyph F n [""] "").characters = "" ∧ (mkGlyph F n [""] "").features = [""]) := by
  constructor
  · intro F fuel n rest memo h
    rcases h1 : input_from_name_aux F fuel n (F.adv n == 0) memo [] with ⟨res, m1, s1⟩
    rw [h1] at h
    rcases res with _ | ⟨f, c⟩
    · simp [all_inputs_go, h1]
    · simp at h
  · intro F n
    exact ⟨rfl, rfl⟩

/-- C3 witness: the amended statement applied to the concrete font `F3c`
and its unresolvable glyph `z`. -/
theorem c3_amended_witness :
    all_inputs_go F3c 7 ["z"] [] =
      mkGlyph F3c "z" [""] "" ::
        all_inputs_go F3c 7 []
          ((input_from_name_aux F3c 7 "z" (F3c.adv "z" == 0) [] []).2.1) :=
  c3_amended.1 F3c 7 "z" [] [] (by decide)

/-- C4 counterexample: resolving the unresolvable glyph `z` of `F3c`
returns the unresolvable outcome but leaves the memo without an entry for
`z` — the outcome is not cached, contradicting the claim that every
outcome is cached before returning. -/
theorem c4_counterexample :
    (input_from_name F3c "z" false []).1 = none
    ∧ (input_from_name F3c "z" false []).2.1.lookup "z" = none := by decide

/-- C4 (amended): a memo hit returns the cached result immediately with no
state change; a successful resolution caches its (features, text) before
returning; but the unresolvable outcome is never cached (the `return
None` paths skip the memo write), so a second resolution of an
unresolvable name repeats the search. -/
theorem c4_amended :
    (∀ (F : TTF) (fuel : Nat) (name : String) (pad : Bool) (memo : Memo)
        (seen : List String) (r : Cand), memo.lookup name = some r →
      input_from_name_aux F (fuel+1) name pad memo seen = (some r, memo, seen))
    ∧ (∀ (F : TTF) (fuel : Nat) (name : String) (pad : Bool) (memo : Memo)
        (seen : List String) (f : List String) (t : String),
        (input_from_name_aux F fuel name pad memo seen).1 = some (f, t) →
        (input_from_name_aux F fuel name pad memo seen).2.1.lookup name = some (f, t))
    ∧ (∀ (F : TTF) (fuel : Nat) (name : String) (pad : Bool) (memo : Memo)
        (seen : List String), memo.lookup name = none →
        (input_from_name_aux F fuel name pad memo seen).1 = none →
        (input_from_name_aux F fuel name pad memo seen).2.1.lookup name = none) := by
  refine ⟨?_, ?_, ?_⟩
  · intro F fuel name pad memo seen r h
    simp [input_from_name_aux, h]
  · intro F fuel name pad memo seen f t h
    match fuel with
    | 0 => simp [input_from_name_aux] at h
    | n+1 =>
      rcases hm : memo.lookup name with _ | r
      · by_cases hs : name ∈ seen
        · simp [input_from_name_aux, hm, hs] at h
        · rcases hg : gsub_cands_aux F n F.rules name memo (name :: seen) with ⟨gs, m1, s1⟩
          rcases hp : pyMin (cmap_base F name ++ gs) with _ | ⟨f0, t0⟩
          · simp [input_from_name_aux, hm, hs, hg, hp] at h
          · simp [input_from_name_aux, hm, hs, hg, hp] at h ⊢
            obtain ⟨h1, h2⟩ := h
            simp [lookup_cons_self, h1, h2]
      · simp [input_from_name_aux, hm] at h ⊢
        exact h
  · intro F fuel name pad memo seen hm h
    match fuel with
    | 0 => simp [input_from_name_aux, hm]
    | n+1 =>
      by_cases hs : name ∈ seen
      · simp [input_from_name_aux, hm, hs]
      · rcases hg : gsub_cands_aux F n F.rules name memo (name :: seen) with ⟨gs, m1, s1⟩
        have hf : m1.lookup name = none := by
          have hfr := (memo_frozen n F).2.1 F.rules name memo (name :: seen) name
            (List.mem_cons_self _ _)
          rw [hg] at hfr
          rw [hfr, hm]
        rcases hp : pyMin (cmap_base F name ++ gs) with _ | ⟨f0, t0⟩
        · simpa [input_from_name_aux, hm, hs, hg, hp] using hf
        · simp [input_from_name_aux, hm, hs, hg, hp] at h

/-- C4 witness: the three clauses of the amended statement at concrete
inputs — a memo hit, a successful resolution that was cached, and an
unresolvable outcome that was not. -/
theorem c4_amended_witness :
    input_from_name_aux F3c (4+1) "z" false [("z", ([], "q"))] [] =
      (some ([], "q"), [("z", ([], "q"))], [])
    ∧ (input_from_name_aux F5c 26 "c" false [] []).2.1.lookup "c" =
        some (["x1"], "a")
    ∧ (input_from_name_aux F3c 7 "z" false [] []).2.1.lookup "z" = none :=
  ⟨c4_amended.1 F3c 4 "z" false [("z", ([], "q"))] [] ([], "q") (by decide),
   c4_amended.2.1 F5c 26 "c" false [] [] ["x1"] "a" (by decide),
   c4_amended.2.2 F3c 7 "z" false [] [] (by decide) (by decide)⟩

/-- C5 counterexample: resolving `c` in `F5c` succeeds after the recursive
branch for `a` has completed, yet the returned `seen` set is
`["a", "c"]` — `a` is still present after its branch finished, because
the removal step is commented out in this source. -/
theorem c5_counterexample :
    (input_from_name F5c "c" false []).1.isSome = true
    ∧ (input_from_name F5c "c" false []).2.2 = ["a", "c"] := by decide

/-- C5 (amended): the `seen` set only grows — every name added during one
top-level resolution stays in it for the remainder of that call (the
upstream removal after a completed branch is commented out), so `seen`
holds every name visited on any explored path, not only the active one. -/
theorem c5_amended :
    (∀ (F : TTF) (fuel : Nat) (name : String) (pad : Bool) (memo : Memo)
      (seen : List String),
      seen ⊆ (input_from_name_aux F fuel name pad memo seen).2.2)
    ∧ (input_from_name F5c "c" false []).2.2 = ["a", "c"] := by
  exact ⟨fun F fuel name pad memo seen => (seen_mono fuel F).1 name pad memo seen,
    by decide⟩

/-- C5 witness: the invariant of the amended statement at a concrete
call (`seen` starting as `["c"]` survives into the returned set). -/
theorem c5_amended_witness :
    (["c"] : List String) ⊆ (input_from_name_aux F5c 10 "a" false [] ["c"]).2.2 :=
  c5_amended.1 F5c 10 "a" false [] ["c"]

/-- C6: `all_inputs` yields exactly one GlyphInput per glyph of the glyph
order, in order: mapping each produced Glyph to its name gives back the
glyph order itself. -/
theorem c6_totality :
    ∀ F : TTF, (all_inputs F).map (fun g => g.name) = F.glyph_order :=
  fun F => all_inputs_go_names F (defaultFuel F) F.glyph_order []

/-- C10: every GlyphInput produced by `all_inputs` has space-free
characters: the `characters.replace(' ', '')` step removes every space of
the resolved text (padding or not) before the Glyph is constructed, and
unresolvable glyphs get empty text. -/
theorem c10_no_space_in_characters :
    ∀ (F : TTF) (g : Glyph), g ∈ all_inputs F → ' ' ∉ g.characters.data :=
  fun F g hg => all_inputs_go_no_space F (defaultFuel F) F.glyph_order [] g hg

/-- C10 witness: the space-free property at the single GlyphInput of the
concrete font `F2c` (whose resolved text was padded to `"  a"` before the
strip). -/
theorem c10_no_space_witness :
    ' ' ∉ (mkGlyph F2c "a" [] "a").characters.data :=
  c10_no_space_in_characters F2c (mkGlyph F2c "a" [] "a") (by decide)

/-- C8 counterexample: `F8a` and `F8b` hold the same set of substitution
rules (one is a permutation of the other, swapping only the enumeration
order of the two rules producing `c`), yet resolving `c` chooses different
(features, text) pairs: resolving the `p` branch first strands the helper
glyph `m` in the never-pruned `seen` set, which suppresses the `q`
candidate, so the enumeration order changes the chosen input. -/
theorem c8_counterexample :
    F8a.rules.Perm F8b.rules
    ∧ (input_from_name F8a "c" false []).1 = some (["f2", "zz"], "a")
    ∧ (input_from_name F8b "c" false []).1 = some (["aa", "f2", "f3", "f4"], "a")
    ∧ (input_from_name F8a "c" false []).1 ≠ (input_from_name F8b "c" false []).1 := by
  refine ⟨?_, by decide, by decide, by decide⟩
  show List.Perm (_ :: _ :: _) (_ :: _ :: _)
  exact List.Perm.swap _ _ _

/-- C8 (amended): when not answered from the memo or pruned by the cycle
guard, `input_from_name` returns `min(inputs)` — the lexicographically
smallest (feature tuple, text) pair of the enumerated candidate list,
compared tag-by-tag with a shorter tuple first (then padding is applied).
`pyMin` indeed delivers a member of the list that no candidate is strictly
below, and its value is invariant under permutation of the candidate
list; but the candidate list itself (and hence the chosen input) is not
independent of rule enumeration order, because the unpruned `seen` set can
suppress candidates of later rules (see the counterexample). -/
theorem c8_amended :
    (∀ (F : TTF) (fuel : Nat) (name : String) (pad : Bool) (memo : Memo)
        (seen : List String), memo.lookup name = none → name ∉ seen →
      (input_from_name_aux F (fuel+1) name pad memo seen).1 =
        Option.map (fun c : Cand =>
          (c.1, if pad ∧ 0 < F.space_width then
              spaces (padCount (F.vis name) F.space_width) ++ c.2
            else c.2))
          (pyMin (cand_list F fuel name memo seen)))
    ∧ (∀ (l : List Cand) (x : Cand), pyMin l = some x →
        x ∈ l ∧ ∀ y ∈ l, candLt y x = false)
    ∧ (∀ l1 l2 : List Cand, l1.Perm l2 → pyMin l1 = pyMin l2) := by
  refine ⟨?_, pyMin_spec, pyMin_perm⟩
  intro F fuel name pad memo seen hm hs
  rcases hg : gsub_cands_aux F fuel F.rules name memo (name :: seen) with ⟨gs, m1, s1⟩
  have hcl : cand_list F fuel name memo seen = cmap_base F name ++ gs := by
    simp [cand_list, hg]
  rcases hp : pyMin (cmap_base F name ++ gs) with _ | ⟨f0, t0⟩
  · simp [input_from_name_aux, hm, hs, hg, hcl, hp]
  · simp [input_from_name_aux, hm, hs, hg, hcl, hp]

/-- C8 witness: the selection equation of the amended statement at `F8a`
(glyph `c`, empty memo and `seen`, no padding). -/
theorem c8_amended_witness :
    (input_from_name_aux F8a (39+1) "c" false [] []).1 =
      Option.map (fun c : Cand =>
        (c.1, if (false : Bool) ∧ 0 < F8a.space_width then
            spaces (padCount (F8a.vis "c") F8a.space_width) ++ c.2
          else c.2))
        (pyMin (cand_list F8a 39 "c" [] [])) :=
  c8_amended.1 F8a 39 "c" false [] [] rfl (by decide)

theorem update_keys (l : List (String × Int)) (t : String) (v : Int) :
    (l.map (fun p => if p.1 = t then (t, v) else p)).map Prod.fst =
      l.map Prod.fst := by
  induction l with
  | nil => rfl
  | cons p ps ih =>
    by_cases h : p.1 = t
    · simp [h, ih]
    · simp [h, ih]

theorem update_lookup_self (l : List (String × Int)) (t : String) (v : Int)
    (h : t ∈ l.map Prod.fst) :
    (l.map (fun p => if p.1 = t then (t, v) else p)).lookup t = some v := by
  induction l with
  | nil => simp at h
  | cons p ps ih =>
    rcases p with ⟨k, w⟩
    by_cases hp : k = t
    · subst hp
      have hmap : ((k, w) :: ps).map (fun p => if p.1 = k then (k, v) else p) =
          (k, v) :: ps.map (fun p => if p.1 = k then (k, v) else p) := by
        simp
      rw [hmap]
      exact lookup_cons_self k v _
    · have h2 : t ∈ ps.map Prod.fst := by
        rw [List.map_cons] at h
        rcases List.mem_cons.mp h with h | h
        · exact absurd h.symm hp
        · exact h
      have hmap : ((k, w) :: ps).map (fun p => if p.1 = t then (t, v) else p) =
          (k, w) :: ps.map (fun p => if p.1 = t then (t, v) else p) := by
        simp [hp]
      rw [hmap, lookup_cons_ne k t w _ hp]
      exact ih h2

theorem update_lookup_ne (l : List (String × Int)) (t : String) (v : Int)
    (x : String) (h : x ≠ t) :
    (l.map (fun p => if p.1 = t then (t, v) else p)).lookup x = l.lookup x := by
  induction l with
  | nil => rfl
  | cons p ps ih =>
    rcases p with ⟨k, w⟩
    by_cases hp : k = t
    · subst hp
      have hmap : ((k, w) :: ps).map (fun p => if p.1 = k then (k, v) else p) =
          (k, v) :: ps.map (fun p => if p.1 = k then (k, v) else p) := by
        simp
      rw [hmap]
      rw [lookup_cons_ne k x v _ (Ne.symm h), lookup_cons_ne k x w _ (Ne.symm h)]
      exact ih
    · have hmap : ((k, w) :: ps).map (fun p => if p.1 = t then (t, v) else p) =
          (k, w) :: ps.map (fun p => if p.1 = t then (t, v) else p) := by
        simp [hp]
      rw [hmap]
      by_cases hkx : k = x
      · subst hkx
        rw [lookup_cons_self, lookup_cons_self]
      · rw [lookup_cons_ne _ _ _ _ hkx, lookup_cons_ne _ _ _ _ hkx]
        exact ih

theorem applyAxes_keys : ∀ (axes locs : List (String × Int)),
    ((applyAxes locs axes).1).map Prod.fst = locs.map Prod.fst := by
  intro axes
  induction axes with
  | nil => intro locs; simp [applyAxes]
  | cons a rest ih =>
    intro locs
    rcases a with ⟨t, v⟩
    by_cases h : t ∈ locs.map Prod.fst
    · simp only [applyAxes, if_pos h]
      rw [ih]
      exact update_keys locs t v
    · rcases h2 : applyAxes locs rest with ⟨l, w⟩
      simp only [applyAxes, if_neg h, h2]
      have h3 := ih locs
      rw [h2] at h3
      exact h3

theorem applyAxes_warns : ∀ (axes locs : List (String × Int)),
    (applyAxes locs axes).2 =
      (axes.filter (fun p => !decide (p.1 ∈ locs.map Prod.fst))).map
        (fun p => "font has no axis called " ++ p.1) := by
  intro axes
  induction axes with
  | nil => intro locs; simp [applyAxes]
  | cons a rest ih =>
    intro locs
    rcases a with ⟨t, v⟩
    by_cases h : t ∈ locs.map Prod.fst
    · have hc : (!decide (t ∈ locs.map Prod.fst)) = false := by simp [h]
      simp only [applyAxes, if_pos h]
      rw [ih (locs.map (fun p => if p.1 = t then (t, v) else p)), update_keys]
      rw [List.filter_cons]
      simp [hc]
    · have hc : (!decide (t ∈ locs.map Prod.fst)) = true := by simp [h]
      rcases h2 : applyAxes locs rest with ⟨l, w⟩
      simp only [applyAxes, if_neg h, h2]
      have h3 := ih locs
      rw [h2] at h3
      rw [List.filter_cons]
      simp [hc]
      exact h3

theorem applyAxes_lookup_notin : ∀ (axes locs : List (String × Int)) (t : String),
    t ∉ axes.map Prod.fst →
    (applyAxes locs axes).1.lookup t = locs.lookup t := by
  intro axes
  induction axes with
  | nil => intro locs t h; simp [applyAxes]
  | cons a rest ih =>
    intro locs t h
    rcases a with ⟨t', v'⟩
    rw [List.map_cons] at h
    have ha : t ≠ t' := fun he => h (he ▸ List.mem_cons_self _ _)
    have hb : t ∉ rest.map Prod.fst := fun hm => h (List.mem_cons_of_mem _ hm)
    by_cases hk : t' ∈ locs.map Prod.fst
    · simp only [applyAxes, if_pos hk]
      rw [ih _ t hb]
      exact update_lookup_ne locs t' v' t ha
    · rcases h2 : applyAxes locs rest with ⟨l, w⟩
      simp only [applyAxes, if_neg hk, h2]
      have h3 := ih locs t hb
      rw [h2] at h3
      exact h3

theorem applyAxes_lookup_requested :
    ∀ (axes locs : List (String × Int)) (t : String) (v : Int),
    (axes.map Prod.fst).Nodup → (t, v) ∈ axes → t ∈ locs.map Prod.fst →
    (applyAxes locs axes).1.lookup t = some v := by
  intro axes
  induction axes with
  | nil => intro locs t v hnd hmem; simp at hmem
  | cons a rest ih =>
    intro locs t v hnd hmem hkey
    rcases a with ⟨t', v'⟩
    simp [List.nodup_cons] at hnd
    rcases List.mem_cons.mp hmem with he | hmem2
    · have h1 : t = t' := congrArg Prod.fst he
      have h2 : v = v' := congrArg Prod.snd he
      subst h1
      subst h2
      simp only [applyAxes, if_pos hkey]
      rw [applyAxes_lookup_notin rest _ t (by simpa using hnd.1)]
      exact update_lookup_self locs t v hkey
    · have htk : t ∈ rest.map Prod.fst := List.mem_map_of_mem Prod.fst hmem2
      by_cases hk : t' ∈ locs.map Prod.fst
      · simp only [applyAxes, if_pos hk]
        apply ih _ t v hnd.2 hmem2
        rw [update_keys]
        exact hkey
      · rcases h2 : applyAxes locs rest with ⟨l, w⟩
        simp only [applyAxes, if_neg hk, h2]
        have h3 := ih locs t v hnd.2 hmem2 hkey
        rw [h2] at h3
        exact h3

theorem decl_locs_keys (decl : List Axis) :
    ((decl.map (fun a => (a.tag, a.defaultValue))).map Prod.fst) =
      decl.map (fun a => a.tag) := by
  rw [List.map_map]
  rfl

theorem decl_locs_lookup (decl : List Axis) (a : Axis)
    (hnd : (decl.map (fun x => x.tag)).Nodup) (ha : a ∈ decl) :
    (decl.map (fun x => (x.tag, x.defaultValue))).lookup a.tag =
      some a.defaultValue := by
  induction decl with
  | nil => simp at ha
  | cons b rest ih =>
    simp [List.nodup_cons] at hnd
    rcases List.mem_cons.mp ha with he | hmem
    · subst he
      simp only [List.map_cons]
      exact lookup_cons_self _ _ _
    · have hne : b.tag ≠ a.tag := by
        intro he2
        exact hnd.1 a hmem he2.symm
      simp only [List.map_cons]
      rw [lookup_cons_ne _ _ _ _ hne]
      exact ih hnd.2 hmem

/-- C9: `set_variations` on a variable font succeeds on a request mixing
declared and undeclared axis tags: the new resource is the instantiation
of the load-time font at the requested coordinate, the axis order is the
declared tag list, the resulting pinned coordinate contains exactly the
declared axes — each requested declared tag at its requested value, each
unrequested declared axis at its default — and exactly one warning is
printed per undeclared requested tag, in request order. -/
theorem c9_set_variations :
    ∀ (τ : Type) (d : Dumps τ) (inst : TTF → List (String × Int) → TTF)
      (st : DFont τ) (axes : List (String × Int)) (decl : List Axis),
      st.src.fvar = some decl →
      (decl.map (fun a => a.tag)).Nodup →
      (axes.map Prod.fst).Nodup →
      ((set_variations d inst st axes).1.ttfont = inst st.src axes)
      ∧ ((set_variations d inst st axes).1.axis_order =
          some (decl.map (fun a => a.tag)))
      ∧ (∃ L : List (String × Int),
          (set_variations d inst st axes).1.axis_locations = some L
          ∧ L.map Prod.fst = decl.map (fun a => a.tag)
          ∧ (∀ a ∈ decl, ∀ v : Int, (a.tag, v) ∈ axes → L.lookup a.tag = some v)
          ∧ (∀ a ∈ decl, a.tag ∉ axes.map Prod.fst →
              L.lookup a.tag = some a.defaultValue))
      ∧ ((set_variations d inst st axes).2 =
          (axes.filter (fun p => !decide (p.1 ∈ decl.map (fun a => a.tag)))).map
            (fun p => "font has no axis called " ++ p.1)) := by
  intro τ d inst st axes decl hf hnd hnda
  rcases h2 : applyAxes (decl.map (fun a => (a.tag, a.defaultValue))) axes
    with ⟨locs, warns⟩
  have hkeys : locs.map Prod.fst = decl.map (fun a => a.tag) := by
    have h3 := applyAxes_keys axes (decl.map (fun a => (a.tag, a.defaultValue)))
    rw [h2, decl_locs_keys] at h3
    exact h3
  refine ⟨?_, ?_, ⟨locs, ?_, hkeys, ?_, ?_⟩, ?_⟩
  · simp [set_variations, hf, h2, recalc_tables]
  · simp [set_variations, hf, h2, recalc_tables]
  · simp [set_variations, hf, h2, recalc_tables]
  · intro a ha v hv
    have hkey : a.tag ∈ (decl.map (fun x => (x.tag, x.defaultValue))).map Prod.fst := by
      rw [decl_locs_keys]
      exact List.mem_map_of_mem _ ha
    have h3 := applyAxes_lookup_requested axes _ a.tag v hnda hv hkey
    rw [h2] at h3
    exact h3
  · intro a ha hni
    have h3 := applyAxes_lookup_notin axes
      (decl.map (fun x => (x.tag, x.defaultValue))) a.tag hni
    rw [h2] at h3
    rw [h3]
    exact decl_locs_lookup decl a hnd ha
  · have h3 := applyAxes_warns axes (decl.map (fun x => (x.tag, x.defaultValue)))
    rw [h2, decl_locs_keys] at h3
    simp [set_variations, hf, h2, recalc_tables, h3]

theorem filter_length_mono {α : Type} (l : List α) (p q : α → Bool)
    (h : ∀ a, q a = true → p a = true) :
    (l.filter q).length ≤ (l.filter p).length := by
  induction l with
  | nil => simp
  | cons a as ih =>
    rcases hq : q a with _ | _
    · have h1 : (a :: as).filter q = as.filter q := by simp [List.filter_cons, hq]
      rcases hp : p a with _ | _
      · have h2 : (a :: as).filter p = as.filter p := by simp [List.filter_cons, hp]
        rw [h1, h2]
        exact ih
      · have h2 : (a :: as).filter p = a :: as.filter p := by
          simp [List.filter_cons, hp]
        rw [h1, h2, List.length_cons]
        exact le_trans ih (Nat.le_succ _)
    · have hp := h a hq
      have h1 : (a :: as).filter q = a :: as.filter q := by
        simp [List.filter_cons, hq]
      have h2 : (a :: as).filter p = a :: as.filter p := by
        simp [List.filter_cons, hp]
      rw [h1, h2, List.length_cons, List.length_cons]
      exact Nat.succ_le_succ ih

theorem gap_mono (F : TTF) (seen seen' : List String) (h : seen ⊆ seen') :
    seenGap F seen' ≤ seenGap F seen := by
  apply filter_length_mono
  intro a ha
  simp at ha ⊢
  exact fun hmem => ha (h hmem)

theorem gap_strict_aux : ∀ (l seen : List String) (name : String),
    name ∈ l → name ∉ seen →
    (l.filter (fun n => !decide (n ∈ name :: seen))).length <
      (l.filter (fun n => !decide (n ∈ seen))).length := by
  intro l
  induction l with
  | nil => intro seen name h _; simp at h
  | cons a as ih =>
    intro seen name hmem hns
    by_cases ha : a = name
    · subst ha
      have e1 : (a :: as).filter (fun n => !decide (n ∈ a :: seen)) =
          as.filter (fun n => !decide (n ∈ a :: seen)) := by
        simp [List.filter_cons]
      have e2 : (a :: as).filter (fun n => !decide (n ∈ seen)) =
          a :: as.filter (fun n => !decide (n ∈ seen)) := by
        simp [List.filter_cons, hns]
      have h3 := filter_length_mono as (fun n => !decide (n ∈ seen))
        (fun n => !decide (n ∈ a :: seen))
        (fun x hx => by
          simp at hx ⊢
          exact hx.2)
      rw [e1, e2, List.length_cons]
      omega
    · have hmem' : name ∈ as := by
        rcases List.mem_cons.mp hmem with h | h
        · exact absurd h.symm ha
        · exact h
      by_cases hb : a ∈ seen
      · have e1 : (a :: as).filter (fun n => !decide (n ∈ name :: seen)) =
            as.filter (fun n => !decide (n ∈ name :: seen)) := by
          simp [List.filter_cons, List.mem_cons, hb]
        have e2 : (a :: as).filter (fun n => !decide (n ∈ seen)) =
            as.filter (fun n => !decide (n ∈ seen)) := by
          simp [List.filter_cons, hb]
        rw [e1, e2]
        exact ih seen name hmem' hns
      · have e1 : (a :: as).filter (fun n => !decide (n ∈ name :: seen)) =
            a :: as.filter (fun n => !decide (n ∈ name :: seen)) := by
          simp [List.filter_cons, List.mem_cons, hb, ha]
        have e2 : (a :: as).filter (fun n => !decide (n ∈ seen)) =
            a :: as.filter (fun n => !decide (n ∈ seen)) := by
          simp [List.filter_cons, hb]
        rw [e1, e2, List.length_cons, List.length_cons]
        exact Nat.succ_lt_succ (ih seen name hmem' hns)

theorem gap_strict (F : TTF) (seen : List String) (name : String)
    (h1 : name ∈ all_names F) (h2 : name ∉ seen) :
    seenGap F (name :: seen) < seenGap F seen :=
  gap_strict_aux (all_names F) seen name h1 h2

theorem gsub_no_match (F : TTF) : ∀ (f : Nat) (rules : List Rule) (name : String)
    (memo : Memo) (seen : List String), (∀ r ∈ rules, r.output ≠ name) →
    gsub_cands_aux F f rules name memo seen = ([], memo, seen) := by
  intro f
  induction f with
  | zero => intro rules name memo seen _; rfl
  | succ n ih =>
    intro rules name memo seen h
    rcases rules with _ | ⟨r, rs⟩
    · rfl
    · have ho : ¬ r.output = name := h r (List.mem_cons_self _ _)
      simp only [gsub_cands_aux, if_neg ho]
      exact ih rs name memo seen (fun r2 hr2 => h r2 (List.mem_cons_of_mem _ hr2))

theorem output_mem_all_names (F : TTF) (r : Rule) (hr : r ∈ F.rules) :
    r.output ∈ all_names F := by
  unfold all_names
  apply List.mem_append_right
  apply List.mem_flatMap.mpr
  exact ⟨r, hr, List.mem_cons_self _ _⟩

theorem input_mem_all_names (F : TTF) (r : Rule) (hr : r ∈ F.rules) (g : String)
    (hg : g ∈ r.input) : g ∈ all_names F := by
  unfold all_names
  apply List.mem_append_right
  apply List.mem_flatMap.mpr
  exact ⟨r, hr, List.mem_cons_of_mem _ hg⟩

theorem le_foldr_max : ∀ (l : List Nat) (x : Nat), x ∈ l → x ≤ l.foldr max 0 := by
  intro l
  induction l with
  | nil => intro x h; simp at h
  | cons a as ih =>
    intro x h
    rcases List.mem_cons.mp h with h | h
    · rw [h]
      exact le_max_left _ _
    · exact le_trans (ih x h) (le_max_right _ _)

theorem input_len_le_max (F : TTF) (r : Rule) (hr : r ∈ F.rules) :
    r.input.length ≤ maxInputLen F :=
  le_foldr_max _ _ (List.mem_map_of_mem (fun r => r.input.length) hr)

/-- Fuel stabilisation: once the fuel passes a bound computed from the
number of names the `seen` set can still absorb, the result of the
resolver (and of its two sub-traversals) no longer depends on the fuel.
This is the termination content of the embedding: the depth of the `seen`
guarded recursion is bounded by the font's name count, so any two
sufficient fuels compute the same answer. -/
theorem stable_all : ∀ (F : TTF) (k : Nat),
    (∀ (name : String) (pad : Bool) (memo : Memo) (seen : List String)
        (f1 f2 : Nat), seenGap F seen ≤ k →
      (k+1) * fuelStep F ≤ f1 → (k+1) * fuelStep F ≤ f2 →
      input_from_name_aux F f1 name pad memo seen =
        input_from_name_aux F f2 name pad memo seen)
    ∧ (∀ (gs : List String) (memo : Memo) (seen : List String) (f1 f2 : Nat),
        (∀ g ∈ gs, g ∈ all_names F) → seenGap F seen ≤ k →
      (k+1) * fuelStep F + gs.length + 1 ≤ f1 →
      (k+1) * fuelStep F + gs.length + 1 ≤ f2 →
      seq_aux F f1 gs memo seen = seq_aux F f2 gs memo seen)
    ∧ (∀ (rules : List Rule) (name : String) (memo : Memo) (seen : List String)
        (f1 f2 : Nat), (∀ r ∈ rules, r ∈ F.rules) → seenGap F seen ≤ k →
      (k+1) * fuelStep F + rules.length + maxInputLen F + 2 ≤ f1 →
      (k+1) * fuelStep F + rules.length + maxInputLen F + 2 ≤ f2 →
      gsub_cands_aux F f1 rules name memo seen =
        gsub_cands_aux F f2 rules name memo seen) := by
  intro F k
  induction k using Nat.strong_induction_on with
  | _ k ih =>
  have hfs : 3 ≤ fuelStep F := by unfold fuelStep; omega
  have hmul : fuelStep F ≤ (k+1) * fuelStep F :=
    Nat.le_mul_of_pos_left _ (Nat.succ_pos k)
  have hA : ∀ (name : String) (pad : Bool) (memo : Memo) (seen : List String)
      (f1 f2 : Nat), seenGap F seen ≤ k →
      (k+1) * fuelStep F ≤ f1 → (k+1) * fuelStep F ≤ f2 →
      input_from_name_aux F f1 name pad memo seen =
        input_from_name_aux F f2 name pad memo seen := by
    intro name pad memo seen f1 f2 hg hf1 hf2
    obtain ⟨a, rfl⟩ : ∃ a, f1 = a + 1 :=
      Nat.exists_eq_succ_of_ne_zero (by omega)
    obtain ⟨b, rfl⟩ : ∃ b, f2 = b + 1 :=
      Nat.exists_eq_succ_of_ne_zero (by omega)
    rcases hm : memo.lookup name with _ | r
    · by_cases hs : name ∈ seen
      · simp [input_from_name_aux, hm, hs]
      · by_cases hnm : name ∈ all_names F
        · have hstrict := gap_strict F seen name hnm hs
          have hk1 : 1 ≤ k := by omega
          have hgap2 : seenGap F (name :: seen) ≤ k - 1 := by omega
          have hG' := (ih (k-1) (by omega)).2.2
          have hke : k - 1 + 1 = k := by omega
          have hb1 : (k-1+1) * fuelStep F + F.rules.length + maxInputLen F + 2 ≤ a := by
            rw [hke]
            rw [Nat.succ_mul] at hf1
            have hFb : fuelStep F = F.rules.length + maxInputLen F + 3 := rfl
            omega
          have hb2 : (k-1+1) * fuelStep F + F.rules.length + maxInputLen F + 2 ≤ b := by
            rw [hke]
            rw [Nat.succ_mul] at hf2
            have hFb : fuelStep F = F.rules.length + maxInputLen F + 3 := rfl
            omega
          have heq := hG' F.rules name memo (name :: seen) a b
            (fun r hr => hr) hgap2 hb1 hb2
          simp only [input_from_name_aux, hm, if_neg hs]
          rw [heq]
        · have hnr : ∀ r ∈ F.rules, r.output ≠ name :=
            fun r hr he => hnm (he ▸ output_mem_all_names F r hr)
          have h1 := gsub_no_match F a F.rules name memo (name :: seen) hnr
          have h2 := gsub_no_match F b F.rules name memo (name :: seen) hnr
          simp only [input_from_name_aux, hm, if_neg hs]
          rw [h1, h2]
    · simp [input_from_name_aux, hm]
  have hS : ∀ (gs : List String) (memo : Memo) (seen : List String) (f1 f2 : Nat),
      (∀ g ∈ gs, g ∈ all_names F) → seenGap F seen ≤ k →
      (k+1) * fuelStep F + gs.length + 1 ≤ f1 →
      (k+1) * fuelStep F + gs.length + 1 ≤ f2 →
      seq_aux F f1 gs memo seen = seq_aux F f2 gs memo seen := by
    intro gs
    induction gs with
    | nil =>
      intro memo seen f1 f2 _ _ hf1 hf2
      obtain ⟨a, rfl⟩ : ∃ a, f1 = a + 1 :=
        Nat.exists_eq_succ_of_ne_zero (by omega)
      obtain ⟨b, rfl⟩ : ∃ b, f2 = b + 1 :=
        Nat.exists_eq_succ_of_ne_zero (by omega)
      rfl
    | cons g rest ihgs =>
      intro memo seen f1 f2 hgl hg hf1 hf2
      simp only [List.length_cons] at hf1 hf2
      obtain ⟨a, rfl⟩ : ∃ a, f1 = a + 1 :=
        Nat.exists_eq_succ_of_ne_zero (by omega)
      obtain ⟨b, rfl⟩ : ∃ b, f2 = b + 1 :=
        Nat.exists_eq_succ_of_ne_zero (by omega)
      have heq1 := hA g false memo seen a b hg (by omega) (by omega)
      rcases hi : input_from_name_aux F b g false memo seen with ⟨res, m1, s1⟩
      have hsub : seen ⊆ s1 := by
        have h5 := (seen_mono b F).1 g false memo seen
        rw [hi] at h5
        exact h5
      have hg1 : seenGap F s1 ≤ k := le_trans (gap_mono F seen s1 hsub) hg
      rcases res with _ | ⟨f, t⟩
      · simp only [seq_aux, heq1, hi]
      · have heq2 := ihgs m1 s1 a b
          (fun x hx => hgl x (List.mem_cons_of_mem _ hx)) hg1 (by omega) (by omega)
        simp only [seq_aux, heq1, hi, heq2]
  have hG : ∀ (rules : List Rule) (name : String) (memo : Memo)
      (seen : List String) (f1 f2 : Nat), (∀ r ∈ rules, r ∈ F.rules) →
      seenGap F seen ≤ k →
      (k+1) * fuelStep F + rules.length + maxInputLen F + 2 ≤ f1 →
      (k+1) * fuelStep F + rules.length + maxInputLen F + 2 ≤ f2 →
      gsub_cands_aux F f1 rules name memo seen =
        gsub_cands_aux F f2 rules name memo seen := by
    intro rules
    induction rules with
    | nil =>
      intro name memo seen f1 f2 _ _ hf1 hf2
      obtain ⟨a, rfl⟩ : ∃ a, f1 = a + 1 :=
        Nat.exists_eq_succ_of_ne_zero (by omega)
      obtain ⟨b, rfl⟩ : ∃ b, f2 = b + 1 :=
        Nat.exists_eq_succ_of_ne_zero (by omega)
      rfl
    | cons r rs ihr =>
      intro name memo seen f1 f2 hr hg hf1 hf2
      simp only [List.length_cons] at hf1 hf2
      obtain ⟨a, rfl⟩ : ∃ a, f1 = a + 1 :=
        Nat.exists_eq_succ_of_ne_zero (by omega)
      obtain ⟨b, rfl⟩ : ∃ b, f2 = b + 1 :=
        Nat.exists_eq_succ_of_ne_zero (by omega)
      by_cases ho : r.output = name
      · have hin : ∀ g ∈ r.input, g ∈ all_names F :=
          fun g hgm => input_mem_all_names F r (hr r (List.mem_cons_self _ _)) g hgm
        have hlen : r.input.length ≤ maxInputLen F :=
          input_len_le_max F r (hr r (List.mem_cons_self _ _))
        have heq1 := hS r.input memo seen a b hin hg (by omega) (by omega)
        rcases hq : seq_aux F b r.input memo seen with ⟨sq, m1, s1⟩
        have hsub : seen ⊆ s1 := by
          have h5 := (seen_mono b F).2.2 r.input memo seen
          rw [hq] at h5
          exact h5
        have hg1 : seenGap F s1 ≤ k := le_trans (gap_mono F seen s1 hsub) hg
        have heq2 := ihr name m1 s1 a b
          (fun x hx => hr x (List.mem_cons_of_mem _ hx)) hg1 (by omega) (by omega)
        rcases sq with _ | ⟨fs, ts⟩
        · simp only [gsub_cands_aux, if_pos ho, heq1, hq, heq2]
        · simp only [gsub_cands_aux, if_pos ho, heq1, hq, heq2]
      · have heq2 := ihr name memo seen a b
          (fun x hx => hr x (List.mem_cons_of_mem _ hx)) hg (by omega) (by omega)
        simp only [gsub_cands_aux, if_neg ho, heq2]
  exact ⟨hA, hS, hG⟩

/-- C7: the cycle guard makes resolution terminate.  Conjuncts: a call on
a glyph already in `seen` (and not answered by the memo) returns the
unresolvable outcome immediately instead of recursing; the resolver's
answer is independent of the fuel once the fuel reaches `defaultFuel` — a
bound derived from the font's name count, which is the embedding's form
of "recursion depth is bounded by the glyph count"; and on the concrete
two-glyph cyclic font both glyphs of the cycle resolve (terminate) to the
unresolvable outcome. -/
theorem c7_termination :
    (∀ (F : TTF) (fuel : Nat) (name : String) (pad : Bool) (memo : Memo)
        (seen : List String), memo.lookup name = none → name ∈ seen →
      input_from_name_aux F (fuel+1) name pad memo seen = (none, memo, seen))
    ∧ (∀ (F : TTF) (name : String) (pad : Bool) (memo : Memo)
        (seen : List String) (f1 f2 : Nat),
        defaultFuel F ≤ f1 → defaultFuel F ≤ f2 →
        input_from_name_aux F f1 name pad memo seen =
          input_from_name_aux F f2 name pad memo seen)
    ∧ (input_from_name FCc "A" false []).1 = none
    ∧ (input_from_name FCc "B" false []).1 = none := by
  refine ⟨?_, ?_, by decide, by decide⟩
  · intro F fuel name pad memo seen hm hs
    simp [input_from_name_aux, hm, hs]
  · intro F name pad memo seen f1 f2 h1 h2
    have hA := (stable_all F ((all_names F).length)).1
    have hgap : seenGap F seen ≤ (all_names F).length :=
      le_trans (List.length_filter_le _ _) (le_refl _)
    apply hA name pad memo seen f1 f2 hgap
    · unfold defaultFuel at h1
      omega
    · unfold defaultFuel at h2
      omega

/-- C7 witness: the guard clause and the fuel-independence clause at
concrete inputs (the cyclic font `FCc`). -/
theorem c7_witness :
    input_from_name_aux FCc (5+1) "A" false [] ["A"] = (none, [], ["A"])
    ∧ input_from_name_aux FCc (defaultFuel FCc + 7) "A" false [] [] =
        input_from_name_aux FCc (defaultFuel FCc) "A" false [] [] := by
  constructor
  · exact c7_termination.1 FCc 5 "A" false [] ["A"] rfl (by decide)
  · exact c7_termination.2.1 FCc "A" false [] [] (defaultFuel FCc + 7)
      (defaultFuel FCc) (Nat.le_add_right _ _) (le_refl _)

/-- C9 witness: the spec scenario — a font declaring only `wght`,
requested with `wght = 700` and an undeclared `zzzz`, yields exactly one
warning for `zzzz` and keeps the declared axis order. -/
theorem c9_witness :
    (set_variations dUnit inst9 (mkDFont dUnit F9c) [("wght", 700), ("zzzz", 1)]).2 =
      ["font has no axis called zzzz"]
    ∧ (set_variations dUnit inst9 (mkDFont dUnit F9c)
        [("wght", 700), ("zzzz", 1)]).1.axis_order = some ["wght"] := by
  have h := c9_set_variations Unit dUnit inst9 (mkDFont dUnit F9c)
    [("wght", 700), ("zzzz", 1)] [⟨"wght", 400⟩] rfl (by decide) (by decide)
  constructor
  · rw [h.2.2.2]
    decide
  · rw [h.2.1]
    decide
